import Mathlib

/-
Verification of the reaction-to-role synchronization engine of
`react_roles/react_roles.py` (class `ReactRoles`).

Modelling conventions:
  - Discord snowflake ids (server, channel, message, member, role ids) are `Nat`.
    Reaction symbols (`emoji_str`, a unicode emoji or a custom emote id string)
    are `String`.
  - Python dicts whose only observations in the relevant code are key lookup and
    assignment are embedded as total functions into an `Option` or default value
    (`upd` models `d[k] = v`).  The innermost message configuration dict
    (emoji -> role) is kept as an association list because
    `get_all_roles_from_message` enumerates its values.
  - The concatenated string keys `channel.id + "_" + message.id` and
    `server.id + "_" + member.id` are embedded as pairs; the concatenation is a
    bijection on Discord ids (digit strings), so nothing is lost.
  - Python `set` objects of role objects become `Finset Nat` of role ids
    (role objects compare by identity per id in a fixed server).
-/

namespace ReactRoles

abbrev ServerId := Nat
abbrev ChannelId := Nat
abbrev MessageId := Nat
abbrev MemberId := Nat
abbrev RoleId := Nat
abbrev Emoji := String

/-- key `channel.id + "_" + message.id` used by `self.links`. -/
abbrev Entry := ChannelId × MessageId

/-- key `"_".join((member.server.id, member.id))` used by `self.role_map` and
`self.role_queue`. -/
abbrev QKey := ServerId × MemberId

/-- Pointwise update, modelling the python dict assignment `d[k] = v`. -/
def upd {α β : Type} [DecidableEq α] (f : α → β) (k : α) (v : β) : α → β :=
  fun x => if x = k then v else f x

theorem upd_same {α β : Type} [DecidableEq α] (f : α → β) (k : α) (v : β) :
    upd f k v k = v := by simp [upd]

theorem upd_other {α β : Type} [DecidableEq α] (f : α → β) (k x : α) (v : β)
    (h : x ≠ k) : upd f k v x = f x := by simp [upd, h]

/-! ## Binding cache (`self.role_cache`)

The cache is `{server.id: {channel.id: {message.id: {emoji_str: role}}}}`.
The outer three levels are dicts observed only through full-path lookup and
are collapsed into one total function; the innermost message configuration is
an association list with dict-assignment semantics. -/

abbrev MsgConf := List (Emoji × RoleId)
abbrev RoleCache := ServerId → ChannelId → MessageId → MsgConf

/-- Lookup of an emoji in a message configuration dict. -/
def lookupEmoji : MsgConf → Emoji → Option RoleId
  | [], _ => none
  | (e, r) :: rest, e2 => if e = e2 then some r else lookupEmoji rest e2

/-- `ReactRoles.add_to_cache` (react_roles.py:498-503): nested `setdefault`
walks to the message dict and performs `message_conf[emoji_str] = role`.
Dict assignment replaces any previous binding of the same emoji. -/
def add_to_cache (cache : RoleCache) (s : ServerId) (c : ChannelId) (m : MessageId)
    (e : Emoji) (r : RoleId) : RoleCache :=
  fun s2 c2 m2 =>
    if (s2, c2, m2) = (s, c, m) then
      (e, r) :: (cache s c m).filter (fun p => decide (p.1 ≠ e))
    else cache s2 c2 m2

/-- `ReactRoles.get_from_cache` (react_roles.py:509-511). -/
def get_from_cache (cache : RoleCache) (s : ServerId) (c : ChannelId) (m : MessageId)
    (e : Emoji) : Option RoleId :=
  lookupEmoji (cache s c m) e

/-- `ReactRoles.remove_role_from_cache` (react_roles.py:513-521): deletes the
emoji key from the message dict when the whole path exists; observationally a
filter on the innermost association list. -/
def remove_role_from_cache (cache : RoleCache) (s : ServerId) (c : ChannelId)
    (m : MessageId) (e : Emoji) : RoleCache :=
  fun s2 c2 m2 =>
    if (s2, c2, m2) = (s, c, m) then
      (cache s c m).filter (fun p => decide (p.1 ≠ e))
    else cache s2 c2 m2

/-- `ReactRoles.get_all_roles_from_message` (react_roles.py:505-507): the set of
values of the message configuration dict. -/
def get_all_roles_from_message (cache : RoleCache) (s : ServerId) (c : ChannelId)
    (m : MessageId) : Finset RoleId :=
  ((cache s c m).map Prod.snd).toFinset

theorem lookupEmoji_filter_ne (l : MsgConf) (e : Emoji) :
    lookupEmoji (l.filter (fun p => decide (p.1 ≠ e))) e = none := by
  induction l with
  | nil => rfl
  | cons hd tl ih =>
    by_cases h : hd.1 = e
    · simpa [List.filter, h] using ih
    · simpa [List.filter, h, lookupEmoji] using ih

/-- C8. Round trip on the binding cache: after `add_to_cache` (the cache write
of a successful bind) the same (server, channel, message, symbol) path looks up
the bound role, and after `remove_role_from_cache` (the cache write of unbind)
the lookup yields none, from any prior cache state. -/
theorem bind_lookup_roundtrip (cache : RoleCache) (s : ServerId) (c : ChannelId)
    (m : MessageId) (e : Emoji) (r : RoleId) :
    get_from_cache (add_to_cache cache s c m e r) s c m e = some r ∧
    get_from_cache (remove_role_from_cache cache s c m e) s c m e = none := by
  constructor
  · simp [get_from_cache, add_to_cache, lookupEmoji]
  · have h := lookupEmoji_filter_ne (cache s c m) e
    simpa [get_from_cache, remove_role_from_cache] using h

/-! ## Link registry (`self.links`)

`self.links` is `{server.id: {channel.id_message.id: set(role)}}`.  The claims
observe it only through `get_link` (which defaults a missing key to the empty
set), so the per-server dict is embedded as a total function `Entry → Finset
RoleId`; a key deleted or never inserted maps to the empty set, matching the
`get_link` default, and `remove_links` deleting an entry whose set became
empty coincides with leaving the empty set in place. -/

abbrev LinkDict := Entry → Finset RoleId

/-- `ReactRoles.get_link` (react_roles.py:469-470). -/
def get_link (dict : LinkDict) (e : Entry) : Finset RoleId := dict e

/-- the first loop of `ReactRoles.parse_links` (react_roles.py:476-480):
`role_list` is the union of all cached roles of the messages of one link. -/
def groupRoles (cache : RoleCache) (s : ServerId) (link : List Entry) : Finset RoleId :=
  link.foldl (fun acc e => acc ∪ get_all_roles_from_message cache s e.1 e.2) ∅

/-- the second loop of `ReactRoles.parse_links` (react_roles.py:481-482):
`link_dict.setdefault(entry, set()).update(role_list)` for every entry of the
link. -/
def addGroup (cache : RoleCache) (s : ServerId) (dict : LinkDict)
    (link : List Entry) : LinkDict :=
  link.foldl (fun d e => upd d e (d e ∪ groupRoles cache s link)) dict

/-- `ReactRoles.parse_links` (react_roles.py:472-483): builds a fresh
`link_dict = {}` from the given list of links and installs it wholesale as the
server entry of `self.links`. -/
def parse_links (cache : RoleCache) (s : ServerId)
    (links_list : List (List Entry)) : LinkDict :=
  links_list.foldl (addGroup cache s) (fun _ => ∅)

/-- `ReactRoles.remove_links` (react_roles.py:485-495): for each entry of the
named link, subtracts the cached roles of that entry own message from the
entry exclusivity set (deleting the entry when the set empties, which the
functional embedding represents as the empty set). -/
def remove_links (cache : RoleCache) (s : ServerId) (entry_list : List Entry)
    (dict : LinkDict) : LinkDict :=
  entry_list.foldl
    (fun d e => upd d e (d e \ get_all_roles_from_message cache s e.1 e.2)) dict

/-- the success path of the `roles link` command `ReactRoles._roles_link`
(react_roles.py:251-260): `server_links[name] = pairs` followed by
`self.parse_links(server.id, [pairs])`, which replaces the whole per-server
link dict with one parsed from the new group alone. -/
def roles_link_success (cache : RoleCache) (links : ServerId → LinkDict)
    (s : ServerId) (pairs : List Entry) : ServerId → LinkDict :=
  upd links s (parse_links cache s [pairs])

theorem foldl_union_mono (cache : RoleCache) (s : ServerId) (l : List Entry)
    (acc : Finset RoleId) :
    acc ⊆ l.foldl (fun a e => a ∪ get_all_roles_from_message cache s e.1 e.2) acc := by
  induction l generalizing acc with
  | nil => exact fun x hx => hx
  | cons hd tl ih =>
    exact Finset.Subset.trans Finset.subset_union_left (ih _)

theorem foldl_union_superset (cache : RoleCache) (s : ServerId) (l : List Entry)
    (acc : Finset RoleId) (e : Entry) (he : e ∈ l) :
    get_all_roles_from_message cache s e.1 e.2 ⊆
      l.foldl (fun a e2 => a ∪ get_all_roles_from_message cache s e2.1 e2.2) acc := by
  induction l generalizing acc with
  | nil => cases he
  | cons hd tl ih =>
    rcases List.mem_cons.1 he with h | h
    · subst h
      exact Finset.Subset.trans Finset.subset_union_right
        (foldl_union_mono cache s tl _)
    · exact ih _ h

theorem groupRoles_superset (cache : RoleCache) (s : ServerId) (link : List Entry)
    (e : Entry) (he : e ∈ link) :
    get_all_roles_from_message cache s e.1 e.2 ⊆ groupRoles cache s link :=
  foldl_union_superset cache s link ∅ e he

theorem foldl_updUnion_mono (R : Finset RoleId) (l : List Entry) (d : LinkDict)
    (e : Entry) :
    d e ⊆ (l.foldl (fun d2 e2 => upd d2 e2 (d2 e2 ∪ R)) d) e := by
  induction l generalizing d with
  | nil => exact fun x hx => hx
  | cons hd tl ih =>
    refine Finset.Subset.trans ?_ (ih (upd d hd (d hd ∪ R)))
    by_cases h : e = hd
    · subst h; rw [upd_same]; exact Finset.subset_union_left
    · rw [upd_other _ _ _ _ h]

theorem foldl_updUnion_superset (R : Finset RoleId) (l : List Entry) (d : LinkDict)
    (e : Entry) (he : e ∈ l) :
    R ⊆ (l.foldl (fun d2 e2 => upd d2 e2 (d2 e2 ∪ R)) d) e := by
  induction l generalizing d with
  | nil => cases he
  | cons hd tl ih =>
    rcases List.mem_cons.1 he with h | h
    · subst h
      refine Finset.Subset.trans ?_ (foldl_updUnion_mono R tl _ e)
      show R ⊆ upd d e (d e ∪ R) e
      rw [upd_same]; exact Finset.subset_union_right
    · exact ih _ h

theorem foldl_updUnion_not_mem (R : Finset RoleId) (l : List Entry) (d : LinkDict)
    (e : Entry) (he : e ∉ l) :
    (l.foldl (fun d2 e2 => upd d2 e2 (d2 e2 ∪ R)) d) e = d e := by
  induction l generalizing d with
  | nil => rfl
  | cons hd tl ih =>
    have h1 : e ∉ tl := fun h => he (List.mem_cons_of_mem _ h)
    have h2 : e ≠ hd := fun h => he (h ▸ List.mem_cons_self _ _)
    rw [List.foldl_cons, ih _ h1, upd_other _ _ _ _ h2]

theorem addGroup_superset (cache : RoleCache) (s : ServerId) (dict : LinkDict)
    (link : List Entry) (e : Entry) (he : e ∈ link) :
    groupRoles cache s link ⊆ addGroup cache s dict link e :=
  foldl_updUnion_superset (groupRoles cache s link) link dict e he

theorem addGroup_mono (cache : RoleCache) (s : ServerId) (dict : LinkDict)
    (link : List Entry) (e : Entry) :
    dict e ⊆ addGroup cache s dict link e :=
  foldl_updUnion_mono (groupRoles cache s link) link dict e

theorem addGroup_not_mem (cache : RoleCache) (s : ServerId) (dict : LinkDict)
    (link : List Entry) (e : Entry) (he : e ∉ link) :
    addGroup cache s dict link e = dict e :=
  foldl_updUnion_not_mem (groupRoles cache s link) link dict e he

theorem foldl_addGroup_mono (cache : RoleCache) (s : ServerId)
    (ls : List (List Entry)) (d : LinkDict) (e : Entry) :
    d e ⊆ (ls.foldl (addGroup cache s) d) e := by
  induction ls generalizing d with
  | nil => exact fun x hx => hx
  | cons hd tl ih =>
    exact Finset.Subset.trans (addGroup_mono cache s d hd e) (ih _)

theorem foldl_addGroup_superset (cache : RoleCache) (s : ServerId)
    (ls : List (List Entry)) (d : LinkDict) (group : List Entry) (e : Entry)
    (hg : group ∈ ls) (he : e ∈ group) :
    groupRoles cache s group ⊆ (ls.foldl (addGroup cache s) d) e := by
  induction ls generalizing d with
  | nil => cases hg
  | cons hd tl ih =>
    rcases List.mem_cons.1 hg with h | h
    · subst h
      exact Finset.Subset.trans (addGroup_superset cache s d group e he)
        (foldl_addGroup_mono cache s tl _ e)
    · exact ih _ h

theorem parse_links_superset (cache : RoleCache) (s : ServerId)
    (links_list : List (List Entry)) (group : List Entry) (e : Entry)
    (hg : group ∈ links_list) (he : e ∈ group) :
    groupRoles cache s group ⊆ parse_links cache s links_list e :=
  foldl_addGroup_superset cache s links_list _ group e hg he

theorem foldl_addGroup_eq (cache : RoleCache) (s : ServerId)
    (ls : List (List Entry)) (d : LinkDict) (e : Entry)
    (he : ∀ group ∈ ls, e ∉ group) :
    (ls.foldl (addGroup cache s) d) e = d e := by
  induction ls generalizing d with
  | nil => rfl
  | cons hd tl ih =>
    rw [List.foldl_cons, ih _ (fun g hg => he g (List.mem_cons_of_mem _ hg)),
      addGroup_not_mem cache s d hd e (he hd (List.mem_cons_self _ _))]

theorem parse_links_not_mem (cache : RoleCache) (s : ServerId)
    (links_list : List (List Entry)) (e : Entry)
    (he : ∀ group ∈ links_list, e ∉ group) :
    parse_links cache s links_list e = ∅ :=
  foldl_addGroup_eq cache s links_list _ e he

/-- C9. After a successful `roles link` admin operation, the per-server
exclusivity dict equals the one parsed from the new group alone: the prior
dict is discarded wholesale, so a message linked earlier under a different
group name and not part of the new group ends with empty exclusivity. -/
theorem link_rebuilds_exclusivity (cache : RoleCache) (links : ServerId → LinkDict)
    (s : ServerId) (pairs : List Entry) (e2 : Entry)
    (_hprev : get_link (links s) e2 ≠ ∅) (hnot : e2 ∉ pairs) :
    roles_link_success cache links s pairs s = parse_links cache s [pairs] ∧
    get_link (roles_link_success cache links s pairs s) e2 = ∅ := by
  constructor
  · rw [roles_link_success, upd_same]
  · rw [roles_link_success, upd_same, get_link]
    refine parse_links_not_mem cache s [pairs] e2 ?_
    intro g hg
    rcases List.mem_cons.1 hg with h | h
    · subst h; exact hnot
    · cases h

/-- a concrete prior link state for the C9 witness: server 1 has message (1,9)
linked with exclusivity {3}. -/
def linksPrev : ServerId → LinkDict :=
  fun _ e => if e = (1, 9) then {3} else ∅

/-- a concrete empty cache for witnesses. -/
def cacheEmpty : RoleCache := fun _ _ _ => []

/-- Witness for C9 at a concrete prior state: relinking group [(1,1),(1,2)]
on server 1 discards the earlier exclusivity of message (1,9). -/
theorem link_rebuilds_exclusivity_witness :
    roles_link_success cacheEmpty linksPrev 1 [(1, 1), (1, 2)] 1 =
      parse_links cacheEmpty 1 [[(1, 1), (1, 2)]] ∧
    get_link (roles_link_success cacheEmpty linksPrev 1 [(1, 1), (1, 2)] 1) (1, 9) = ∅ :=
  link_rebuilds_exclusivity cacheEmpty linksPrev 1 [(1, 1), (1, 2)] (1, 9)
    (by decide) (by decide)

/-! ## Mutation queue (`self.role_map`, `self.role_queue`) and worker

A pending intent `q` is the dict `{True: set(), False: {default_role}, "mem":
member}`; the member object is determined by the queue key, so the embedding
keeps only the two role sets (`q[True]` = roles to add, `q[False]` = roles to
remove). -/

structure MemberIntent where
  addSet : Finset RoleId
  removeSet : Finset RoleId
deriving DecidableEq

/-- One call of `ReactRoles.add_role_queue` carries a role, the add/remove
flag `add_bool` and the keyword set `linked_roles` (defaulted to the empty set
by the remove-event call site). -/
structure RoleOp where
  role : RoleId
  add_bool : Bool
  linked : Finset RoleId
deriving DecidableEq

/-- the fresh intent `{True: set(), False: {member.server.default_role}}`
created by `add_role_queue` when the key is absent (react_roles.py:429);
`d` is the default (everyone) role of the member server. -/
def freshIntent (d : RoleId) : MemberIntent := ⟨∅, {d}⟩

/-- the merge body of `ReactRoles.add_role_queue` (react_roles.py:432-435), in
the source statement order:
`q[True].difference_update(linked_roles); q[False].update(linked_roles);
q[not add_bool] -= {role}; q[add_bool] |= {role}`. -/
def applyQueueOp (q : MemberIntent) (op : RoleOp) : MemberIntent :=
  let a1 := q.addSet \ op.linked
  let r1 := q.removeSet ∪ op.linked
  if op.add_bool then ⟨a1 ∪ {op.role}, r1 \ {op.role}⟩
  else ⟨a1 \ {op.role}, r1 ∪ {op.role}⟩

/-- folding a whole sequence of enqueue calls for one member into the intent a
single worker pop will see, starting from the fresh intent (the key was not in
`role_map` before the first call and is not drained until after the last). -/
def mergeOps (d : RoleId) (ops : List RoleOp) : MemberIntent :=
  ops.foldl applyQueueOp (freshIntent d)

/-- the set passed to `replace_roles` by the worker (react_roles.py:447-451):
`(all_roles | add_set) - del_set` where `all_roles` is the member current live
role set. -/
def writeSet (current : Finset RoleId) (q : MemberIntent) : Finset RoleId :=
  (current ∪ q.addSet) \ q.removeSet

/-- Reference semantics for one enqueue applied directly to a role set: the
exclusivity removals and then the single add/remove of the bound role,
last-writer-wins per role (the specification fold of testable property 1). -/
def applyOpToSet (S : Finset RoleId) (op : RoleOp) : Finset RoleId :=
  let S1 := S \ op.linked
  if op.add_bool then S1 ∪ {op.role} else S1 \ {op.role}

/-- sequential fold of a sequence of enqueues onto a pre-existing role set. -/
def foldOps (S : Finset RoleId) (ops : List RoleOp) : Finset RoleId :=
  ops.foldl applyOpToSet S

/-- Modelled from the spec: the merge rule of section 4.3 stated as
`intent.remove -= add; intent.add -= remove; intent.add |= add;
intent.remove |= remove`, in that statement order, for one
`enqueue(member, add, remove)` call. -/
def specMergeStep (q : MemberIntent) (A R : Finset RoleId) : MemberIntent :=
  let r1 := q.removeSet \ A
  let a1 := q.addSet \ R
  ⟨a1 ∪ A, r1 ∪ R⟩

theorem writeSet_applyQueueOp (current : Finset RoleId) (q : MemberIntent)
    (op : RoleOp) :
    writeSet current (applyQueueOp q op) = applyOpToSet (writeSet current q) op := by
  rcases op with ⟨r, b, L⟩
  cases b <;>
  · ext x
    simp only [writeSet, applyQueueOp, applyOpToSet, Finset.mem_sdiff,
      Finset.mem_union, Finset.mem_singleton, Bool.false_eq_true, if_false, if_true]
    tauto

theorem writeSet_foldl (current : Finset RoleId) (q : MemberIntent)
    (ops : List RoleOp) :
    writeSet current (ops.foldl applyQueueOp q) =
      ops.foldl applyOpToSet (writeSet current q) := by
  induction ops generalizing q with
  | nil => rfl
  | cons hd tl ih =>
    rw [List.foldl_cons, List.foldl_cons, ih, writeSet_applyQueueOp]

/-- C1 (amended). For every sequence of enqueue calls on one member coalesced
before the worker drains the key, the single `replace_roles` write equals the
member pre-existing live role set with the operations folded on sequentially,
last-writer-wins per role — provided the live set does not contain the everyone
role that the fresh intent defensively seeds for removal.  The per-call update
is the source order of `add_role_queue`: linked roles leave the add set and
enter the remove set first, then the event role leaves the opposite set and
enters its own set last, so a role both granted and listed in its own linked
exclusivity set nets to granted. -/
theorem coalesced_write_eq_fold (d : RoleId) (ops : List RoleOp)
    (current : Finset RoleId) (hd : d ∉ current) :
    writeSet current (mergeOps d ops) = foldOps current ops := by
  rw [mergeOps, foldOps, writeSet_foldl]
  have hbase : writeSet current (freshIntent d) = current := by
    ext x
    simp only [writeSet, freshIntent, Finset.union_empty, Finset.mem_sdiff,
      Finset.mem_singleton]
    constructor
    · exact fun h => h.1
    · intro hx
      exact ⟨hx, fun he => hd (he ▸ hx)⟩
  rw [hbase]

/-- Witness for C1 (amended) at a concrete input: member holds {2, 3}; an add
of role 1 linked to exclusivity {1, 2} followed by a remove of role 3 writes
exactly {1} = fold of the two operations. -/
theorem coalesced_write_eq_fold_witness :
    (0 ∉ ({2, 3} : Finset RoleId)) ∧
    writeSet {2, 3} (mergeOps 0 [⟨1, true, {1, 2}⟩, ⟨3, false, ∅⟩]) =
      foldOps {2, 3} [⟨1, true, {1, 2}⟩, ⟨3, false, ∅⟩] ∧
    foldOps {2, 3} [⟨1, true, {1, 2}⟩, ⟨3, false, ∅⟩] = {1} :=
  ⟨by decide, coalesced_write_eq_fold 0 [⟨1, true, {1, 2}⟩, ⟨3, false, ∅⟩]
    {2, 3} (by decide), by decide⟩

/-- Counterexample to C1 as stated.  The claim asserts the code updates the
pending intent by `intent.remove -= add; intent.add -= remove; intent.add |=
add; intent.remove |= remove` in that order.  For the enqueue produced by a
reaction-add on a linked message the added role belongs to its own exclusivity
set (`add = {1}`, `remove = {1, 2}`), and there the formula leaves the role in
the remove set while the code order removes it: starting from the fresh
intent, the code produces add {1} / remove {0, 2} and writes {1} on a member
holding {2}, while the claimed formula produces add {1} / remove {0, 1, 2} and
writes the empty set — losing the granted role, against the sequential fold the
same claim requires. -/
theorem enqueue_formula_counterexample :
    specMergeStep (freshIntent 0) {1} {1, 2} ≠
      applyQueueOp (freshIntent 0) ⟨1, true, {1, 2}⟩ ∧
    applyQueueOp (freshIntent 0) ⟨1, true, {1, 2}⟩ = ⟨{1}, {0, 2}⟩ ∧
    specMergeStep (freshIntent 0) {1} {1, 2} = ⟨{1}, {0, 1, 2}⟩ ∧
    writeSet {2} (specMergeStep (freshIntent 0) {1} {1, 2}) = ∅ ∧
    writeSet {2} (applyQueueOp (freshIntent 0) ⟨1, true, {1, 2}⟩) = {1} ∧
    foldOps {2} [⟨1, true, {1, 2}⟩] = {1} := by
  refine ⟨?_, ?_, ?_, ?_, ?_, ?_⟩ <;> decide

/-- State of the mutation queue: the FIFO `self.role_queue` of member keys,
the intent dict `self.role_map` (a missing key maps to `none`), and the
in-flight slot of the single worker between its `role_map.pop(key)` and the
completion of the `replace_roles` call. -/
structure QState where
  queue : List QKey
  map : QKey → Option MemberIntent
  inflight : Option (QKey × MemberIntent)

/-- the state after cog construction: empty queue, empty dict, idle worker. -/
def initQState : QState := ⟨[], fun _ => none, none⟩

/-- `ReactRoles.add_role_queue` (react_roles.py:425-436).  `D k` is the
default role of the server of key `k`.  When the key is absent a fresh intent
is created and the key is put on the queue; in both cases the merge body runs
and the result is stored back under the key. -/
def add_role_queue (D : QKey → RoleId) (st : QState) (k : QKey) (op : RoleOp) :
    QState :=
  match st.map k with
  | none => ⟨st.queue ++ [k], upd st.map k (some (applyQueueOp (freshIntent (D k)) op)),
      st.inflight⟩
  | some q => ⟨st.queue, upd st.map k (some (applyQueueOp q op)), st.inflight⟩

/-- the failure branch of `ReactRoles.process_role_queue`
(react_roles.py:453-455): `self.role_map[key] = q` (a plain dict assignment
that overwrites whatever is stored under the key) and `self.role_queue.put(key)`. -/
def failResult (st : QState) (k : QKey) (q : MemberIntent) : QState :=
  ⟨st.queue ++ [k], upd st.map k (some q), none⟩

/-- Interleaved small-step semantics of the system: event handlers may run an
`add_role_queue` at any time (also while a write is in flight, since the
worker suspends at `await self.bot.replace_roles`), and the single worker pops
a key together with its intent (`self.role_queue.get()`;
`self.role_map.pop(key)`, which requires the key to be present), then finishes
the in-flight write with success or failure. -/
inductive QStep (D : QKey → RoleId) : QState → QState → Prop
  | enqueue (st : QState) (k : QKey) (op : RoleOp) :
      QStep D st (add_role_queue D st k op)
  | dequeue (st : QState) (k : QKey) (rest : List QKey) (q : MemberIntent)
      (hq : st.queue = k :: rest) (hm : st.map k = some q) (hf : st.inflight = none) :
      QStep D st ⟨rest, upd st.map k none, some (k, q)⟩
  | success (st : QState) (k : QKey) (q : MemberIntent)
      (h : st.inflight = some (k, q)) :
      QStep D st ⟨st.queue, st.map, none⟩
  | fail (st : QState) (k : QKey) (q : MemberIntent)
      (h : st.inflight = some (k, q)) :
      QStep D st (failResult st k q)

/-- the states reachable from the freshly constructed cog. -/
def QReachable (D : QKey → RoleId) (st : QState) : Prop :=
  Relation.ReflTransGen (QStep D) initQState st

/-- `ReactRoles.check_add_role` (react_roles.py:398-408): on a reaction-add by
a server member other than the bot, look the emoji up in the cache and, when
bound, enqueue an add of the bound role with `linked_roles` equal to the link
exclusivity set of the message. -/
def check_add_role (cache : RoleCache) (links : LinkDict) (D : QKey → RoleId)
    (s : ServerId) (c : ChannelId) (m : MessageId) (e : Emoji)
    (memberId botId : MemberId) (isMember : Bool) (st : QState) : QState :=
  if isMember ∧ memberId ≠ botId then
    match get_from_cache cache s c m e with
    | none => st
    | some role => add_role_queue D st (s, memberId) ⟨role, true, get_link links (c, m)⟩
  else st

/-- `ReactRoles.check_remove_role` (react_roles.py:410-423): on a reaction
removed by a server member, the bot own removals only restore the marker
reaction; for any other member a bound role is enqueued for removal with the
default `linked_roles=set()`. -/
def check_remove_role (cache : RoleCache) (D : QKey → RoleId)
    (s : ServerId) (c : ChannelId) (m : MessageId) (e : Emoji)
    (memberId botId : MemberId) (isMember : Bool) (st : QState) : QState :=
  if isMember then
    if memberId = botId then st
    else
      match get_from_cache cache s c m e with
      | none => st
      | some role => add_role_queue D st (s, memberId) ⟨role, false, ∅⟩
  else st

/-- the sequence of `replace_roles` calls of a worker run that drains the
queue with every write succeeding; `cur k` is the live role set of the member
of key `k` read at processing time.  A key whose intent is missing from the
dict stops the run (`role_map.pop(key)` raises there). -/
def drainWrites (cur : QKey → Finset RoleId) :
    List QKey → (QKey → Option MemberIntent) → List (QKey × Finset RoleId)
  | [], _ => []
  | k :: rest, m =>
    match m k with
    | none => []
    | some q => (k, writeSet (cur k) q) :: drainWrites cur rest (upd m k none)

/-! ### A concrete interleaving

One member key, an add of role 5 enqueued and popped, then an add of role 7
enqueued by a handler while the write is in flight, then the write fails. -/

/-- concrete member key (server 1, member 1). -/
def k0 : QKey := (1, 1)

/-- all servers have default role 0 in the concrete traces. -/
def D0 : QKey → RoleId := fun _ => 0

/-- first enqueue: reaction-add bound to role 5, no links. -/
def qOp1 : RoleOp := ⟨5, true, ∅⟩

/-- second enqueue, arriving while the first write is in flight: reaction-add
bound to role 7, no links. -/
def qOp2 : RoleOp := ⟨7, true, ∅⟩

/-- the intent produced by the first enqueue. -/
def qi1 : MemberIntent := applyQueueOp (freshIntent 0) qOp1

/-- state after the first enqueue. -/
def qs1 : QState := add_role_queue D0 initQState k0 qOp1

/-- state after the worker pops the key and its intent. -/
def qs2 : QState := ⟨[], upd qs1.map k0 none, some (k0, qi1)⟩

/-- state after the second enqueue arrives during the in-flight write: the key
is re-queued with a fresh intent for role 7. -/
def qs3 : QState := add_role_queue D0 qs2 k0 qOp2

/-- state after the in-flight write fails: the original intent is stored back,
overwriting the newly arrived one, and the key is queued a second time. -/
def qs4 : QState := failResult qs3 k0 qi1

/-- state after the worker pops the key again. -/
def qs5 : QState := ⟨[k0], upd qs4.map k0 none, some (k0, qi1)⟩

/-- state after that write succeeds: the queue still holds the key once more,
but no intent for it remains in the dict. -/
def qs6 : QState := ⟨qs5.queue, qs5.map, none⟩

theorem reach_qs4 : QReachable D0 qs4 := by
  refine Relation.ReflTransGen.head (QStep.enqueue initQState k0 qOp1) ?_
  refine Relation.ReflTransGen.head
    (QStep.dequeue qs1 k0 [] qi1 rfl (by decide) rfl) ?_
  refine Relation.ReflTransGen.head (QStep.enqueue qs2 k0 qOp2) ?_
  exact Relation.ReflTransGen.single (QStep.fail qs3 k0 qi1 (by decide))

theorem reach_qs6 : QReachable D0 qs6 := by
  refine Relation.ReflTransGen.trans reach_qs4 ?_
  refine Relation.ReflTransGen.head
    (QStep.dequeue qs4 k0 [k0] qi1 (by decide) (by decide) rfl) ?_
  exact Relation.ReflTransGen.single (QStep.success qs5 k0 qi1 rfl)

/-- Counterexample to C3 as stated.  With enqueue steps interleaving freely
with the worker pop / process / re-enqueue steps, the system reaches a state
in which the same member key sits in the dispatch queue twice: an enqueue
arriving while a write is in flight re-queues the key, and the subsequent
failure path queues it once more. -/
theorem queue_duplicate_counterexample :
    QReachable D0 qs4 ∧ qs4.queue = [k0, k0] :=
  ⟨reach_qs4, by decide⟩

/-- C3 (amended): the per-key uniqueness invariant does hold for every state
reachable when no enqueue interleaves with an in-flight worker cycle, i.e.
when each pop / process / success-or-fail cycle of the worker runs atomically. -/
inductive QStepAtomic (D : QKey → RoleId) : QState → QState → Prop
  | enqueue (st : QState) (k : QKey) (op : RoleOp) :
      QStepAtomic D st (add_role_queue D st k op)
  | cycleSuccess (st : QState) (k : QKey) (rest : List QKey) (q : MemberIntent)
      (hq : st.queue = k :: rest) (hm : st.map k = some q) :
      QStepAtomic D st ⟨rest, upd st.map k none, none⟩
  | cycleFail (st : QState) (k : QKey) (rest : List QKey) (q : MemberIntent)
      (hq : st.queue = k :: rest) (hm : st.map k = some q) :
      QStepAtomic D st ⟨rest ++ [k], upd st.map k (some q), none⟩

/-- occurrence count of a member key in the dispatch queue. -/
def countKey (k : QKey) : List QKey → Nat
  | [] => 0
  | x :: rest => (if x = k then 1 else 0) + countKey k rest

theorem countKey_append (k : QKey) (l l2 : List QKey) :
    countKey k (l ++ l2) = countKey k l + countKey k l2 := by
  induction l with
  | nil => simp [countKey]
  | cons hd tl ih => simp [countKey, ih]; omega

theorem countKey_eq_zero_iff (k : QKey) (l : List QKey) :
    countKey k l = 0 ↔ k ∉ l := by
  induction l with
  | nil => simp [countKey]
  | cons hd tl ih =>
    by_cases h1 : hd = k
    · subst h1
      simp [countKey]
    · simp [countKey, h1, ih, Ne.symm h1]

theorem countKey_eq_zero (k : QKey) (l : List QKey) (h : k ∉ l) :
    countKey k l = 0 := (countKey_eq_zero_iff k l).2 h

theorem countKey_cons_ne (k k1 : QKey) (l : List QKey) (h : k1 ≠ k) :
    countKey k (k1 :: l) = countKey k l := by
  simp [countKey, h]

theorem qinv_preserved (D : QKey → RoleId) (a b : QState)
    (hstep : QStepAtomic D a b)
    (ih : ∀ k, countKey k a.queue ≤ 1 ∧ (k ∈ a.queue ↔ (a.map k).isSome)) :
    ∀ k, countKey k b.queue ≤ 1 ∧ (k ∈ b.queue ↔ (b.map k).isSome) := by
  cases hstep with
  | enqueue k1 op =>
    intro k
    rcases hmm : a.map k1 with _ | q
    · simp only [add_role_queue, hmm]
      by_cases hk : k = k1
      · subst hk
        have hnot : k ∉ a.queue := by
          intro hmem
          have h2 := (ih k).2.1 hmem
          rw [hmm] at h2
          simp at h2
        constructor
        · rw [countKey_append, countKey_eq_zero k a.queue hnot]
          simp [countKey]
        · simp [upd_same]
      · constructor
        · rw [countKey_append, countKey_eq_zero k [k1] (by simp [hk])]
          simpa using (ih k).1
        · rw [upd_other _ _ _ _ hk]
          have hmem : k ∈ a.queue ++ [k1] ↔ k ∈ a.queue := by
            simp [hk]
          rw [hmem]
          exact (ih k).2
    · simp only [add_role_queue, hmm]
      by_cases hk : k = k1
      · subst hk
        refine ⟨(ih k).1, ?_⟩
        rw [upd_same]
        have h2 := (ih k).2
        rw [hmm] at h2
        simpa using h2
      · rw [upd_other _ _ _ _ hk]
        exact ih k
  | cycleSuccess k1 rest q hq hm =>
    intro k
    have hcount := (ih k1).1
    rw [hq] at hcount
    simp [countKey] at hcount
    have hrest : countKey k1 rest = 0 := by omega
    have hnotmem : k1 ∉ rest := (countKey_eq_zero_iff k1 rest).1 hrest
    by_cases hk : k = k1
    · subst hk
      refine ⟨by rw [hrest]; exact Nat.zero_le 1, ?_⟩
      simp [upd_same, hnotmem]
    · have hck := (ih k).1
      rw [hq, countKey_cons_ne k k1 rest (fun h => hk h.symm)] at hck
      refine ⟨hck, ?_⟩
      have h2 := (ih k).2
      rw [hq] at h2
      simpa [upd_other _ _ _ _ hk, List.mem_cons, hk] using h2
  | cycleFail k1 rest q hq hm =>
    intro k
    have hcount := (ih k1).1
    rw [hq] at hcount
    simp [countKey] at hcount
    have hrest : countKey k1 rest = 0 := by omega
    by_cases hk : k = k1
    · subst hk
      constructor
      · rw [countKey_append, hrest]
        simp [countKey]
      · simp [upd_same]
    · constructor
      · rw [countKey_append, countKey_eq_zero k [k1] (by simp [hk])]
        have hck := (ih k).1
        rw [hq, countKey_cons_ne k k1 rest (fun h => hk h.symm)] at hck
        simpa using hck
      · have h2 := (ih k).2
        rw [hq] at h2
        simpa [upd_other _ _ _ _ hk, List.mem_cons, hk] using h2

/-- C3 (amended).  In every state of the mutation queue reachable under atomic
worker cycles (no enqueue interleaving between the worker pop of a key and the
completion of its write), each member key occurs at most once in the dispatch
queue, and it occurs exactly when a live intent for it is in the dict; the
intent dict holds at most one intent per key by construction.  The
counterexample `queue_duplicate_counterexample` shows the restriction is
necessary. -/
theorem queue_invariant_atomic (D : QKey → RoleId) (st : QState)
    (h : Relation.ReflTransGen (QStepAtomic D) initQState st) :
    ∀ k : QKey, countKey k st.queue ≤ 1 ∧ (k ∈ st.queue ↔ (st.map k).isSome) := by
  induction h with
  | refl => exact fun k => ⟨Nat.zero_le 1, by simp [initQState]⟩
  | tail hab hbc ih2 => exact qinv_preserved D _ _ hbc ih2

/-- Witness for C3 (amended) at the concrete state reached by one enqueue. -/
theorem queue_invariant_atomic_witness :
    countKey k0 qs1.queue ≤ 1 ∧ (k0 ∈ qs1.queue ↔ (qs1.map k0).isSome) :=
  queue_invariant_atomic D0 qs1
    (Relation.ReflTransGen.single (QStepAtomic.enqueue initQState k0 qOp1)) k0

/-- Counterexample to C2 as stated.  The claim asserts the failure path merges
the original add/remove sets with any intents that arrived during the
in-flight write.  In the reachable state `qs3` an intent requesting role 7
arrived while the write of the original intent (role 5) was in flight; the
failure step `QStep.fail` is taken and the resulting state stores exactly the
original intent add {5} / remove {0}, so the arrived request for role 7 was
overwritten and dropped, not merged. -/
theorem retry_overwrite_counterexample :
    QReachable D0 qs3 ∧ qs3.map k0 = some ⟨{7}, {0}⟩ ∧ QStep D0 qs3 qs4 ∧
    qs4.map k0 = some ⟨{5}, {0}⟩ ∧
    7 ∉ (⟨{5}, {0}⟩ : MemberIntent).addSet := by
  refine ⟨?_, by decide, QStep.fail qs3 k0 qi1 (by decide), by decide, by decide⟩
  refine Relation.ReflTransGen.head (QStep.enqueue initQState k0 qOp1) ?_
  refine Relation.ReflTransGen.head
    (QStep.dequeue qs1 k0 [] qi1 rfl (by decide) rfl) ?_
  exact Relation.ReflTransGen.single (QStep.enqueue qs2 k0 qOp2)

/-- C2 (amended).  The failure branch of the worker stores the original
intent back under the member key as a plain dict assignment — overwriting any
intent that arrived during the in-flight write rather than merging with it —
and re-enqueues the key at the back of the queue; intents of other member
keys are untouched, so when no intent arrived for the key during the write,
the originally requested change is fully preserved and re-dispatched. -/
theorem retry_reenqueues_original (st : QState) (k k2 : QKey) (q : MemberIntent)
    (hk2 : k2 ≠ k) :
    (failResult st k q).map k = some q ∧
    (failResult st k q).queue = st.queue ++ [k] ∧
    (failResult st k q).map k2 = st.map k2 ∧
    (failResult st k q).inflight = none :=
  ⟨upd_same _ _ _, rfl, upd_other _ _ _ _ hk2, rfl⟩

/-- Witness for C2 (amended) at a concrete input. -/
theorem retry_reenqueues_original_witness :
    (failResult qs3 k0 qi1).map k0 = some qi1 ∧
    (failResult qs3 k0 qi1).queue = qs3.queue ++ [k0] ∧
    (failResult qs3 k0 qi1).map (2, 2) = qs3.map (2, 2) ∧
    (failResult qs3 k0 qi1).inflight = none :=
  retry_reenqueues_original qs3 k0 (2, 2) qi1 (by decide)

/-- C10 is false of the code: in the reachable state `qs6` the dispatch queue
still holds the member key but no intent for it remains in `role_map` (the
enqueue that arrived during the failed in-flight write re-queued the key, the
failure path queued it a second time while restoring a single intent, and the
first re-dispatch consumed that intent).  The next worker iteration executes
`q = self.role_map.pop(key)` on a missing key, which raises `KeyError`; the
loop suppresses only `RuntimeError` and `CancelledError`, so the processing
loop terminates — the unguarded removal does fail in a reachable state. -/
theorem worker_pop_missing_intent :
    QReachable D0 qs6 ∧ qs6.queue = [k0] ∧ qs6.map k0 = none ∧
    qs6.inflight = none :=
  ⟨reach_qs6, by decide, by decide, rfl⟩

/-- C7. A reaction-removal by a member other than the bot enqueues the
removal of only the single role bound to that (message, symbol): the call site
(react_roles.py:423) passes the default `linked_roles=set()`, so the stored
intent is add ∅ / remove {default role, bound role} — the message exclusivity
set is never consulted — and the worker write for that intent is exactly the
live set minus the bound role: every other role of the member is unchanged and
nothing is added, so a role previously revoked by link exclusivity is not
auto-restored. -/
theorem remove_event_requests_single_role (cache : RoleCache) (D : QKey → RoleId)
    (s : ServerId) (c : ChannelId) (m : MessageId) (e : Emoji)
    (memberId botId : MemberId) (st : QState) (r : RoleId) (current : Finset RoleId)
    (hr : get_from_cache cache s c m e = some r)
    (hbot : memberId ≠ botId)
    (hq : st.map (s, memberId) = none)
    (hcur : D (s, memberId) ∉ current) :
    (check_remove_role cache D s c m e memberId botId true st).map (s, memberId) =
      some ⟨∅, insert (D (s, memberId)) {r}⟩ ∧
    (check_remove_role cache D s c m e memberId botId true st).queue =
      st.queue ++ [(s, memberId)] ∧
    writeSet current ⟨∅, insert (D (s, memberId)) {r}⟩ = current \ {r} := by
  have h1 : check_remove_role cache D s c m e memberId botId true st =
      add_role_queue D st (s, memberId) ⟨r, false, ∅⟩ := by
    unfold check_remove_role
    rw [if_pos rfl, if_neg hbot, hr]
  have h3 : applyQueueOp (freshIntent (D (s, memberId))) ⟨r, false, ∅⟩ =
      ⟨∅, insert (D (s, memberId)) {r}⟩ := by
    simp [applyQueueOp, freshIntent, ← Finset.insert_eq]
  have h2 : add_role_queue D st (s, memberId) ⟨r, false, ∅⟩ =
      ⟨st.queue ++ [(s, memberId)],
        upd st.map (s, memberId) (some ⟨∅, insert (D (s, memberId)) {r}⟩),
        st.inflight⟩ := by
    unfold add_role_queue
    rw [hq, h3]
  refine ⟨?_, ?_, ?_⟩
  · rw [h1, h2]
    exact upd_same _ _ _
  · rw [h1, h2]
  · ext x
    simp only [writeSet, Finset.union_empty, Finset.mem_sdiff, Finset.mem_insert,
      Finset.mem_singleton]
    constructor
    · rintro ⟨hx, hni⟩
      exact ⟨hx, fun h => hni (Or.inr h)⟩
    · rintro ⟨hx, hxr⟩
      refine ⟨hx, ?_⟩
      rintro (h | h)
      · exact hcur (h ▸ hx)
      · exact hxr h

/-- a concrete cache for the C7 witness: on server 1, channel 1, message 1 the
symbol "a" is bound to role 4. -/
def cacheC7 : RoleCache :=
  fun s c m => if (s, c, m) = ((1 : Nat), (1 : Nat), (1 : Nat)) then [("a", 4)] else []

/-- Witness for C7 at a concrete input: member 1 of server 1 (bot id 2,
default role 0, live roles {4, 6}) removes the "a" reaction. -/
theorem remove_event_requests_single_role_witness :
    (check_remove_role cacheC7 D0 1 1 1 "a" 1 2 true initQState).map (1, 1) =
      some ⟨∅, insert (D0 (1, 1)) {4}⟩ ∧
    (check_remove_role cacheC7 D0 1 1 1 "a" 1 2 true initQState).queue =
      initQState.queue ++ [(1, 1)] ∧
    writeSet {4, 6} ⟨∅, insert (D0 (1, 1)) {4}⟩ = {4, 6} \ {4} :=
  remove_event_requests_single_role cacheC7 D0 1 1 1 "a" 1 2 initQState 4 {4, 6}
    (by decide) (by decide) rfl (by decide)

/-- one reaction-add event on an idle system followed by a worker run that
drains the queue with every write succeeding: the list of `replace_roles`
calls made, where `current` is the live role set of the reacting member. -/
def reactionAddRun (cache : RoleCache) (links : LinkDict) (D : QKey → RoleId)
    (s : ServerId) (c : ChannelId) (m : MessageId) (e : Emoji)
    (memberId botId : MemberId) (current : Finset RoleId) :
    List (QKey × Finset RoleId) :=
  drainWrites (fun _ => current)
    (check_add_role cache links D s c m e memberId botId true initQState).queue
    (check_add_role cache links D s c m e memberId botId true initQState).map

/-- C4. If roles R1 and R2 are bound on messages of the same link group and a
member holding R2 adds the reaction bound to R1, the worker issues exactly one
`replace_roles` call, and its written set contains R1 and does not contain R2:
the event enqueues add {R1} with `linked_roles` equal to the parsed
exclusivity set of the message, which contains R2. -/
theorem linked_add_single_write (cache : RoleCache) (s : ServerId)
    (links_list : List (List Entry)) (group : List Entry)
    (c : ChannelId) (m : MessageId) (c2 : ChannelId) (m2 : MessageId)
    (e : Emoji) (R1 R2 : RoleId) (memberId botId : MemberId)
    (current : Finset RoleId) (D : QKey → RoleId)
    (hg : group ∈ links_list) (hcm : (c, m) ∈ group) (hcm2 : (c2, m2) ∈ group)
    (hR1 : get_from_cache cache s c m e = some R1)
    (hR2 : R2 ∈ get_all_roles_from_message cache s c2 m2)
    (hne : R2 ≠ R1) (hbot : memberId ≠ botId) (_hcur : R2 ∈ current) :
    (reactionAddRun cache (parse_links cache s links_list) D s c m e memberId
        botId current).length = 1 ∧
    ∀ w ∈ reactionAddRun cache (parse_links cache s links_list) D s c m e
        memberId botId current,
      R1 ∈ w.2 ∧ R2 ∉ w.2 := by
  have hL : R2 ∈ get_link (parse_links cache s links_list) (c, m) :=
    parse_links_superset cache s links_list group (c, m) hg hcm
      (groupRoles_superset cache s group (c2, m2) hcm2 hR2)
  set L := get_link (parse_links cache s links_list) (c, m) with hLdef
  set k := ((s, memberId) : QKey) with hkdef
  set q := applyQueueOp (freshIntent (D k)) ⟨R1, true, L⟩ with hqdef
  have hstep : check_add_role cache (parse_links cache s links_list) D s c m e
      memberId botId true initQState = add_role_queue D initQState k ⟨R1, true, L⟩ := by
    unfold check_add_role
    rw [if_pos ⟨rfl, hbot⟩, hR1]
  have hqueue : (add_role_queue D initQState k ⟨R1, true, L⟩).queue = [k] := rfl
  have hmap : (add_role_queue D initQState k ⟨R1, true, L⟩).map =
      upd (fun _ => none) k (some q) := rfl
  have hrun : reactionAddRun cache (parse_links cache s links_list) D s c m e
      memberId botId current = [(k, writeSet current q)] := by
    unfold reactionAddRun
    rw [hstep, hqueue, hmap]
    simp [drainWrites, upd_same]
  rw [hrun]
  refine ⟨rfl, ?_⟩
  intro w hw
  rw [List.mem_singleton] at hw
  subst hw
  have hqval : q = ⟨(∅ \ L) ∪ {R1}, ({D k} ∪ L) \ {R1}⟩ := rfl
  constructor
  · rw [hqval]
    simp [writeSet]
  · rw [hqval]
    intro hmem
    rw [writeSet, Finset.mem_sdiff] at hmem
    refine hmem.2 ?_
    rw [Finset.mem_sdiff, Finset.mem_singleton]
    exact ⟨Finset.mem_union_right _ hL, hne⟩

/-- a concrete cache for the C4 witness: on server 1, channel 1, message 1
binds "a" to role 1 and message 2 binds "b" to role 2. -/
def cache4 : RoleCache :=
  fun s c m =>
    if (s, c, m) = ((1 : Nat), (1 : Nat), (1 : Nat)) then [("a", 1)]
    else if (s, c, m) = ((1 : Nat), (1 : Nat), (2 : Nat)) then [("b", 2)] else []

/-- Witness for C4 at a concrete input: messages (1,1) and (1,2) are linked in
one group; member 3 of server 1 (bot id 9) holds role 2 and adds the reaction
bound to role 1; the single write is {1}. -/
theorem linked_add_single_write_witness :
    (reactionAddRun cache4 (parse_links cache4 1 [[(1, 1), (1, 2)]]) D0 1 1 1 "a"
        3 9 {2}).length = 1 ∧
    (1 ∈ (((1, 3), ({1} : Finset RoleId)) : QKey × Finset RoleId).2 ∧
      2 ∉ (((1, 3), ({1} : Finset RoleId)) : QKey × Finset RoleId).2) := by
  have h := linked_add_single_write cache4 1 [[(1, 1), (1, 2)]] [(1, 1), (1, 2)]
    1 1 1 2 "a" 1 2 3 9 {2} D0 (by decide) (by decide) (by decide) (by decide)
    (by decide) (by decide) (by decide) (by decide)
  exact ⟨h.1, h.2 ((1, 3), {1}) (by decide)⟩

/-! ## C5: unlink and stale exclusivity -/

/-- a concrete cache for C5: on server 1, role 1 is bound on message (1,1),
role 2 on message (1,2) and role 3 on message (1,3). -/
def cache5 : RoleCache :=
  fun s c m =>
    if (s, c, m) = ((1 : Nat), (1 : Nat), (1 : Nat)) then [("a", 1)]
    else if (s, c, m) = ((1 : Nat), (1 : Nat), (2 : Nat)) then [("b", 2)]
    else if (s, c, m) = ((1 : Nat), (1 : Nat), (3 : Nat)) then [("c", 3)] else []

/-- Modelled from the spec: on `unlink(name)`, the exclusivity of each member
message recomputed as the union of the bound-role sets of the remaining link
groups that still reference it. -/
def specRecompute (cache : RoleCache) (s : ServerId)
    (remaining : List (List Entry)) (e : Entry) : Finset RoleId :=
  (remaining.filter (fun g => decide (e ∈ g))).foldl
    (fun acc g => acc ∪ groupRoles cache s g) ∅

/-- C5 is false of the code (code bug).  Groups G = [(1,1),(1,2)] (roles
{1, 2}) and H = [(1,1),(1,3)] (roles {1, 3}) are parsed, then G is unlinked.
`remove_links` subtracts from each entry only the roles bound on that entry
own message, instead of recomputing across remaining groups: message (1,1),
still referenced by H, keeps the stale role 2 of the removed group and loses
the still-needed shared role 1, and message (1,2), referenced by no remaining
group, keeps a non-empty exclusivity {1}. -/
theorem unlink_leaves_stale_exclusivity :
    remove_links cache5 1 [(1, 1), (1, 2)]
      (parse_links cache5 1 [[(1, 1), (1, 2)], [(1, 1), (1, 3)]]) (1, 1) = {2, 3} ∧
    specRecompute cache5 1 [[(1, 1), (1, 3)]] (1, 1) = {1, 3} ∧
    remove_links cache5 1 [(1, 1), (1, 2)]
        (parse_links cache5 1 [[(1, 1), (1, 2)], [(1, 1), (1, 3)]]) (1, 1) ≠
      specRecompute cache5 1 [[(1, 1), (1, 3)]] (1, 1) ∧
    remove_links cache5 1 [(1, 1), (1, 2)]
      (parse_links cache5 1 [[(1, 1), (1, 2)], [(1, 1), (1, 3)]]) (1, 2) = {1} ∧
    specRecompute cache5 1 [[(1, 1), (1, 3)]] (1, 2) = ∅ := by
  refine ⟨?_, ?_, ?_, ?_, ?_⟩ <;> decide

/-! ## Reconciliation scanner (`ReactRoles._roles_check`) -/

/-- one existing reaction on the scanned message: its symbol and the ids of
the users who placed it, in paging order. -/
structure Reaction where
  emoji : Emoji
  users : List MemberId

/-- the per-reactor body of the scan loop (react_roles.py:380-386): resolve
the user to a server member and, when the member exists, is not the bot and
lacks the bound role, `add_roles(member, role)` and count one grant.  The
state is the role assignment of the server members together with the running
`given_roles` counter; granted roles are modelled as immediately visible. -/
def userStep (r : RoleId) (botId : MemberId) (isMember : MemberId → Bool)
    (st : (MemberId → Finset RoleId) × Nat) (u : MemberId) :
    (MemberId → Finset RoleId) × Nat :=
  if isMember u ∧ u ≠ botId ∧ r ∉ st.1 u then
    (upd st.1 u (insert r (st.1 u)), st.2 + 1)
  else st

/-- the per-reaction body of the scan loop (react_roles.py:370-393): look the
symbol of the reaction up in the cache; when bound, process every reactor,
otherwise only the progress counters change. -/
def reactionStep (cache : RoleCache) (s : ServerId) (c : ChannelId)
    (m : MessageId) (botId : MemberId) (isMember : MemberId → Bool)
    (st : (MemberId → Finset RoleId) × Nat) (react : Reaction) :
    (MemberId → Finset RoleId) × Nat :=
  match get_from_cache cache s c m react.emoji with
  | none => st
  | some r => react.users.foldl (userStep r botId isMember) st

/-- the full grant pass of `ReactRoles._roles_check` over the reactions of a
message: the updated role assignment and the number of grants performed. -/
def roles_check_scan (cache : RoleCache) (s : ServerId) (c : ChannelId)
    (m : MessageId) (botId : MemberId) (isMember : MemberId → Bool)
    (reactions : List Reaction) (roles : MemberId → Finset RoleId) :
    (MemberId → Finset RoleId) × Nat :=
  reactions.foldl (reactionStep cache s c m botId isMember) (roles, 0)

/-- `ReactRoles._roles_check` (react_roles.py:350-395): refuses a message in a
link (`linkedKeys` is the key set of `self.links[server.id]`), otherwise runs
the grant pass. -/
def roles_check (cache : RoleCache) (linkedKeys : Finset Entry) (s : ServerId)
    (c : ChannelId) (m : MessageId) (botId : MemberId)
    (isMember : MemberId → Bool) (reactions : List Reaction)
    (roles : MemberId → Finset RoleId) :
    Option ((MemberId → Finset RoleId) × Nat) :=
  if (c, m) ∈ linkedKeys then none
  else some (roles_check_scan cache s c m botId isMember reactions roles)

theorem userStep_subset (r : RoleId) (botId : MemberId) (isMember : MemberId → Bool)
    (st : (MemberId → Finset RoleId) × Nat) (u x : MemberId) :
    st.1 x ⊆ (userStep r botId isMember st u).1 x := by
  unfold userStep
  split
  · by_cases hx : x = u
    · subst hx
      intro v hv
      simpa [upd_same] using Finset.mem_insert_of_mem hv
    · intro v hv
      simpa [upd_other _ _ _ _ hx] using hv
  · exact fun v hv => hv

theorem foldl_userStep_subset (r : RoleId) (botId : MemberId)
    (isMember : MemberId → Bool) (l : List MemberId)
    (st : (MemberId → Finset RoleId) × Nat) (x : MemberId) :
    st.1 x ⊆ (l.foldl (userStep r botId isMember) st).1 x := by
  induction l generalizing st with
  | nil => exact fun v hv => hv
  | cons hd tl ih =>
    exact Finset.Subset.trans (userStep_subset r botId isMember st hd x) (ih _)

theorem reactionStep_subset (cache : RoleCache) (s : ServerId) (c : ChannelId)
    (m : MessageId) (botId : MemberId) (isMember : MemberId → Bool)
    (st : (MemberId → Finset RoleId) × Nat) (react : Reaction) (x : MemberId) :
    st.1 x ⊆ (reactionStep cache s c m botId isMember st react).1 x := by
  unfold reactionStep
  rcases hl : get_from_cache cache s c m react.emoji with _ | r
  · exact fun v hv => hv
  · exact foldl_userStep_subset r botId isMember react.users st x

theorem foldl_reactionStep_subset (cache : RoleCache) (s : ServerId)
    (c : ChannelId) (m : MessageId) (botId : MemberId)
    (isMember : MemberId → Bool) (reacts : List Reaction)
    (st : (MemberId → Finset RoleId) × Nat) (x : MemberId) :
    st.1 x ⊆ (reacts.foldl (reactionStep cache s c m botId isMember) st).1 x := by
  induction reacts generalizing st with
  | nil => exact fun v hv => hv
  | cons hd tl ih =>
    exact Finset.Subset.trans
      (reactionStep_subset cache s c m botId isMember st hd x) (ih _)

theorem foldl_userStep_post (r : RoleId) (botId : MemberId)
    (isMember : MemberId → Bool) (l : List MemberId)
    (st : (MemberId → Finset RoleId) × Nat) (u : MemberId)
    (hu : u ∈ l) (hm : isMember u) (hb : u ≠ botId) :
    r ∈ (l.foldl (userStep r botId isMember) st).1 u := by
  induction l generalizing st with
  | nil => cases hu
  | cons hd tl ih =>
    rcases List.mem_cons.1 hu with h | h
    · subst h
      by_cases hc : r ∈ st.1 u
      · have he : userStep r botId isMember st u = st := by
          unfold userStep
          rw [if_neg]
          rintro ⟨h1, h2, h3⟩
          exact h3 hc
        rw [List.foldl_cons, he]
        exact foldl_userStep_subset r botId isMember tl st u hc
      · have hr : r ∈ (userStep r botId isMember st u).1 u := by
          unfold userStep
          rw [if_pos ⟨hm, hb, hc⟩]
          simp [upd_same]
        exact foldl_userStep_subset r botId isMember tl _ u hr
    · exact ih _ h

theorem foldl_reactionStep_post (cache : RoleCache) (s : ServerId)
    (c : ChannelId) (m : MessageId) (botId : MemberId)
    (isMember : MemberId → Bool) (reacts : List Reaction)
    (st : (MemberId → Finset RoleId) × Nat) :
    ∀ react ∈ reacts, ∀ r, get_from_cache cache s c m react.emoji = some r →
      ∀ u ∈ react.users, isMember u → u ≠ botId →
        r ∈ (reacts.foldl (reactionStep cache s c m botId isMember) st).1 u := by
  induction reacts generalizing st with
  | nil => intro react h; cases h
  | cons hd tl ih =>
    intro react hreact r hr u hu hm hb
    rcases List.mem_cons.1 hreact with h | h
    · subst h
      have h1 : r ∈ (reactionStep cache s c m botId isMember st react).1 u := by
        unfold reactionStep
        rw [hr]
        exact foldl_userStep_post r botId isMember react.users st u hu hm hb
      rw [List.foldl_cons]
      exact foldl_reactionStep_subset cache s c m botId isMember tl _ u h1
    · rw [List.foldl_cons]
      exact ih _ react h r hr u hu hm hb

theorem foldl_userStep_done (r : RoleId) (botId : MemberId)
    (isMember : MemberId → Bool) (l : List MemberId)
    (roles : MemberId → Finset RoleId) (n : Nat)
    (hdone : ∀ u ∈ l, isMember u → u ≠ botId → r ∈ roles u) :
    l.foldl (userStep r botId isMember) (roles, n) = (roles, n) := by
  induction l with
  | nil => rfl
  | cons hd tl ih =>
    have hstep : userStep r botId isMember (roles, n) hd = (roles, n) := by
      unfold userStep
      rw [if_neg]
      rintro ⟨h1, h2, h3⟩
      exact h3 (hdone hd (List.mem_cons_self _ _) h1 h2)
    rw [List.foldl_cons, hstep,
      ih (fun u hu hm hb => hdone u (List.mem_cons_of_mem _ hu) hm hb)]

theorem foldl_reactionStep_done (cache : RoleCache) (s : ServerId)
    (c : ChannelId) (m : MessageId) (botId : MemberId)
    (isMember : MemberId → Bool) (reacts : List Reaction)
    (roles : MemberId → Finset RoleId) (n : Nat)
    (hdone : ∀ react ∈ reacts, ∀ r,
      get_from_cache cache s c m react.emoji = some r →
      ∀ u ∈ react.users, isMember u → u ≠ botId → r ∈ roles u) :
    reacts.foldl (reactionStep cache s c m botId isMember) (roles, n) = (roles, n) := by
  induction reacts with
  | nil => rfl
  | cons hd tl ih =>
    have hstep : reactionStep cache s c m botId isMember (roles, n) hd = (roles, n) := by
      unfold reactionStep
      rcases hl : get_from_cache cache s c m hd.emoji with _ | r
      · rfl
      · exact foldl_userStep_done r botId isMember hd.users roles n
          (fun u hu hm hb => hdone hd (List.mem_cons_self _ _) r hl u hu hm hb)
    rw [List.foldl_cons, hstep,
      ih (fun react hreact r hr u hu hm hb =>
        hdone react (List.mem_cons_of_mem _ hreact) r hr u hu hm hb)]

theorem foldl_userStep_ineligible (r : RoleId) (botId : MemberId)
    (isMember : MemberId → Bool) (l : List MemberId)
    (st : (MemberId → Finset RoleId) × Nat) (u : MemberId)
    (hu : isMember u = false ∨ u = botId) :
    (l.foldl (userStep r botId isMember) st).1 u = st.1 u := by
  induction l generalizing st with
  | nil => rfl
  | cons hd tl ih =>
    have hstep : (userStep r botId isMember st hd).1 u = st.1 u := by
      unfold userStep
      by_cases hcond : isMember hd = true ∧ hd ≠ botId ∧ r ∉ st.1 hd
      · rw [if_pos hcond]
        by_cases hx : u = hd
        · subst hx
          rcases hu with h | h
          · rw [h] at hcond
            exact absurd hcond.1 (by simp)
          · exact absurd h hcond.2.1
        · simp [upd_other _ _ _ _ hx]
      · rw [if_neg hcond]
    rw [List.foldl_cons, ih (userStep r botId isMember st hd), hstep]

theorem foldl_reactionStep_ineligible (cache : RoleCache) (s : ServerId)
    (c : ChannelId) (m : MessageId) (botId : MemberId)
    (isMember : MemberId → Bool) (reacts : List Reaction)
    (st : (MemberId → Finset RoleId) × Nat) (u : MemberId)
    (hu : isMember u = false ∨ u = botId) :
    (reacts.foldl (reactionStep cache s c m botId isMember) st).1 u = st.1 u := by
  induction reacts generalizing st with
  | nil => rfl
  | cons hd tl ih =>
    have hstep : (reactionStep cache s c m botId isMember st hd).1 u = st.1 u := by
      unfold reactionStep
      rcases hl : get_from_cache cache s c m hd.emoji with _ | r
      · rfl
      · exact foldl_userStep_ineligible r botId isMember hd.users st u hu
    rw [List.foldl_cons, ih (reactionStep cache s c m botId isMember st hd), hstep]

/-- C6. On an unlinked message the scan runs, a grant is issued only to a
reactor who resolves to a server member, is not the bot and lacks the bound
role (unresolvable or bot reactors keep their role set unchanged), and a
second consecutive run with the same reactions performs zero grants. -/
theorem reconcile_idempotent (cache : RoleCache) (linkedKeys : Finset Entry)
    (s : ServerId) (c : ChannelId) (m : MessageId) (botId : MemberId)
    (isMember : MemberId → Bool) (reactions : List Reaction)
    (roles0 : MemberId → Finset RoleId)
    (hnl : (c, m) ∉ linkedKeys) :
    roles_check cache linkedKeys s c m botId isMember reactions roles0 =
      some (roles_check_scan cache s c m botId isMember reactions roles0) ∧
    (roles_check_scan cache s c m botId isMember reactions
      (roles_check_scan cache s c m botId isMember reactions roles0).1).2 = 0 ∧
    ∀ u, (isMember u = false ∨ u = botId) →
      (roles_check_scan cache s c m botId isMember reactions roles0).1 u =
        roles0 u := by
  refine ⟨by rw [roles_check, if_neg hnl], ?_, ?_⟩
  · have hdone : ∀ react ∈ reactions, ∀ r,
        get_from_cache cache s c m react.emoji = some r →
        ∀ u ∈ react.users, isMember u → u ≠ botId →
          r ∈ (roles_check_scan cache s c m botId isMember reactions roles0).1 u :=
      fun react hreact r hr u hu hm hb =>
        foldl_reactionStep_post cache s c m botId isMember reactions (roles0, 0)
          react hreact r hr u hu hm hb
    have h2 := foldl_reactionStep_done cache s c m botId isMember reactions
      (roles_check_scan cache s c m botId isMember reactions roles0).1 0 hdone
    rw [roles_check_scan, h2]
  · intro u hu
    exact foldl_reactionStep_ineligible cache s c m botId isMember reactions
      (roles0, 0) u hu

/-- a concrete cache for the C6 witness: symbol "a" on (server 1, channel 1,
message 1) is bound to role 5. -/
def cache6 : RoleCache :=
  fun s c m => if (s, c, m) = ((1 : Nat), (1 : Nat), (1 : Nat)) then [("a", 5)] else []

/-- Witness for C6 at a concrete input: one reaction "a" by users 1 (member),
2 (the bot) and 3 (not resolvable); message (1,1) is not linked. -/
theorem reconcile_idempotent_witness :
    roles_check cache6 {(2, 2)} 1 1 1 2 (fun u => decide (u ≠ 3))
        [⟨"a", [1, 2, 3]⟩] (fun _ => ∅) =
      some (roles_check_scan cache6 1 1 1 2 (fun u => decide (u ≠ 3))
        [⟨"a", [1, 2, 3]⟩] (fun _ => ∅)) ∧
    (roles_check_scan cache6 1 1 1 2 (fun u => decide (u ≠ 3)) [⟨"a", [1, 2, 3]⟩]
      (roles_check_scan cache6 1 1 1 2 (fun u => decide (u ≠ 3))
        [⟨"a", [1, 2, 3]⟩] (fun _ => ∅)).1).2 = 0 ∧
    (roles_check_scan cache6 1 1 1 2 (fun u => decide (u ≠ 3))
        [⟨"a", [1, 2, 3]⟩] (fun _ => ∅)).1 2 = (fun _ => (∅ : Finset RoleId)) 2 := by
  have h := reconcile_idempotent cache6 {(2, 2)} 1 1 1 2 (fun u => decide (u ≠ 3))
    [⟨"a", [1, 2, 3]⟩] (fun _ => ∅) (by decide)
  exact ⟨h.1, h.2.1, h.2.2 2 (Or.inr rfl)⟩

end ReactRoles